import Mathlib

set_option maxRecDepth 8192

/-
Verification of the batch subtitle-translation core (App.tsx and its service
modules) against its design document.  JavaScript strings are modelled as
List Char; the JS string primitives used by the source (trim, split, join,
the replace calls) are modelled below, and each source function is translated
on top of them.  The network is modelled as an explicit outcome value handed
to the function that performed the fetch.
-/

/-- Model of the ECMAScript whitespace class used by String.prototype.trim:
tab, LF, VT, FF, CR, space, NBSP, the line and paragraph separators, the
Unicode space separators (U+1680, U+2000..U+200A, U+202F, U+205F, U+3000),
and the BOM. -/
def jsIsWS (c : Char) : Bool :=
  c == ' ' || c == '\t' || c == '\n' || c == '\r' ||
  c == Char.ofNat 0x0b || c == Char.ofNat 0x0c ||
  c == Char.ofNat 0xa0 || c == Char.ofNat 0x1680 ||
  (decide (0x2000 ≤ c.toNat) && decide (c.toNat ≤ 0x200a)) ||
  c == Char.ofNat 0x2028 || c == Char.ofNat 0x2029 ||
  c == Char.ofNat 0x202f || c == Char.ofNat 0x205f ||
  c == Char.ofNat 0x3000 || c == Char.ofNat 0xfeff

/-- Model of JS String.prototype.trim: drop whitespace from both ends. -/
def jsTrim (s : List Char) : List Char :=
  ((s.dropWhile jsIsWS).reverse.dropWhile jsIsWS).reverse

/-- Fuel-driven worker for jsSplit.  Scans left to right; at each position a
match of the (non-empty) separator closes the current piece.  Fuel at least
the length of the string makes the fuel case unreachable. -/
def jsSplitAux (sep : List Char) : Nat → List Char → List (List Char)
  | 0, s => [s]
  | _ + 1, [] => [[]]
  | fuel + 1, c :: rest =>
    if sep ≠ [] ∧ sep.isPrefixOf (c :: rest) = true then
      [] :: jsSplitAux sep fuel ((c :: rest).drop sep.length)
    else
      match jsSplitAux sep fuel rest with
      | [] => [[c]]
      | p :: ps => (c :: p) :: ps

/-- Model of JS String.prototype.split with a non-empty literal separator
(the source only splits on the literal delimiter token and on a newline). -/
def jsSplit (sep s : List Char) : List (List Char) :=
  jsSplitAux sep s.length s

/-- Model of JS Array.prototype.join on an array of strings. -/
def jsJoin (sep : List Char) : List (List Char) → List Char
  | [] => []
  | [s] => s
  | s :: rest => s ++ sep ++ jsJoin sep rest

/-- Boolean occurrence test: pat occurs as a contiguous run somewhere in s.
Used only to state side conditions of the round-trip theorem. -/
def hasSub (pat : List Char) : List Char → Bool
  | [] => pat.isEmpty
  | c :: rest => pat.isPrefixOf (c :: rest) || hasSub pat rest

/-- The literal delimiter token the decoder splits on (services/ollama.ts,
rawOutput.split of the SPLIT marker). -/
def SPLITtok : List Char := ("---SPLIT---").data

/-- The joining separator used by the encoder:
texts.join of newline, SPLIT marker, newline (services/ollama.ts). -/
def SEPtok : List Char := ("\n---SPLIT---\n").data

/-- Encoder: the payload embedded into the prompt is the segment texts joined
with the delimiter separator (texts.join in translateBatch). -/
def encodeSegs (texts : List (List Char)) : List Char :=
  jsJoin SEPtok texts

/-- The filter used by the secondary split: keep lines whose trim is
non-empty (s.trim().length > 0 in translateBatch). -/
def nonBlank (s : List Char) : Bool :=
  !(jsTrim s).isEmpty

/-- Decoder of translateBatch (services/ollama.ts): trim the response, split
on the delimiter token and trim each piece; if the count matches the input
count return it; otherwise split on newlines, drop blank lines, and return
that if the count matches; otherwise return the original texts. -/
def translateDecode (raw : List Char) (texts : List (List Char)) : List (List Char) :=
  let rawOutput := jsTrim raw
  let translatedLines := (jsSplit SPLITtok rawOutput).map jsTrim
  if translatedLines.length = texts.length then
    translatedLines
  else
    let altSplit := (jsSplit ['\n'] rawOutput).filter nonBlank
    if altSplit.length = texts.length then altSplit
    else texts

/-- Which return point of the decoder produced the value: the delimiter-split
branch, the newline-split branch, or the return-originals branch.  Mirrors
the if/else structure of translateDecode. -/
inductive DecodePath
  | primary
  | secondary
  | fallback
  deriving DecidableEq

/-- Same branch structure as translateDecode, reporting the taken branch. -/
def translateDecodePath (raw : List Char) (texts : List (List Char)) : DecodePath :=
  let rawOutput := jsTrim raw
  let translatedLines := (jsSplit SPLITtok rawOutput).map jsTrim
  if translatedLines.length = texts.length then
    DecodePath.primary
  else
    let altSplit := (jsSplit ['\n'] rawOutput).filter nonBlank
    if altSplit.length = texts.length then DecodePath.secondary
    else DecodePath.fallback

/-- ASCII lower-casing, modelling the i flag of the scheme test regex. -/
def lowerAscii (c : Char) : Char :=
  if 'A' ≤ c ∧ c ≤ 'Z' then Char.ofNat (c.toNat + 32) else c

/-- The real full-width colon character U+FF1A, the character the
colon-replacement step of cleanHost intends to replace (its comment says
Chinese colon) but, as committed, does not match. -/
def fullColon : Char := Char.ofNat 0xff1a

/-- The three-character sequence the colon-replacement regex actually
matches (services/ollama.ts).  The full-width colon U+FF1A is the UTF-8
byte sequence ef bc 9a; the committed pattern holds those bytes misdecoded
as the three characters U+00EF, U+00BC, U+0161. -/
def MOJI : List Char := [Char.ofNat 0xef, Char.ofNat 0xbc, Char.ofNat 0x161]

/-- Model of JS String.prototype.replace with a global literal pattern:
split on the pattern and join the pieces with the replacement. -/
def jsReplaceAll (pat rep s : List Char) : List Char :=
  jsJoin rep (jsSplit pat s)

/-- Case-insensitive test for a leading http:// or https://
(the scheme regex test in cleanHost). -/
def hasHttpScheme (s : List Char) : Bool :=
  ("http://").data.isPrefixOf (s.map lowerAscii) ||
  ("https://").data.isPrefixOf (s.map lowerAscii)

/-- Stages of cleanHost before the scheme default (services/ollama.ts):
trim, replace every full-width colon by an ASCII colon, strip one trailing
slash. -/
def cleanHostPre (host : List Char) : List Char :=
  let c1 := jsTrim host
  let c2 := jsReplaceAll MOJI [':'] c1
  if c2.getLast? = some '/' then c2.dropLast else c2

/-- cleanHost (services/ollama.ts): the stages above, then prepend http://
when the string does not already start with http:// or https://. -/
def cleanHost (host : List Char) : List Char :=
  let c3 := cleanHostPre host
  if hasHttpScheme c3 then c3 else ("http://").data ++ c3

/-- The errorType values of ConnectionResult (services/ollama.ts). -/
inductive ConnErrorType
  | CORS
  | NETWORK
  | INVALID_URL
  deriving DecidableEq

/-- ConnectionResult (services/ollama.ts). -/
structure ConnectionResult where
  ok : Bool
  errorType : Option ConnErrorType
  deriving DecidableEq

/-- Outcome of the fetch call, as seen by checkConnection: either a response
with an HTTP status, or a thrown transport error. -/
inductive FetchOutcome
  | resp (status : Nat)
  | netError
  deriving DecidableEq

/-- checkConnection (services/ollama.ts).  urlValid models whether the URL
constructor accepts the sanitized address; it is consulted before the fetch
outcome, so an invalid address never reaches the network.  response.ok is
status in 200..299 per the fetch specification. -/
def checkConnection (urlValid : List Char → Bool) (fetch : FetchOutcome)
    (host : List Char) : ConnectionResult :=
  let sanitized := cleanHost host
  if urlValid sanitized = false then
    { ok := false, errorType := some ConnErrorType.INVALID_URL }
  else
    match fetch with
    | FetchOutcome.netError => { ok := false, errorType := some ConnErrorType.NETWORK }
    | FetchOutcome.resp status =>
      if 200 ≤ status ∧ status ≤ 299 then { ok := true, errorType := none }
      else if status = 403 then { ok := false, errorType := some ConnErrorType.CORS }
      else { ok := false, errorType := some ConnErrorType.NETWORK }

/-- SubtitleBlock (types.ts). -/
structure SubtitleBlock where
  id : List Char
  startTime : List Char
  endTime : List Char
  originalText : List Char
  translatedText : List Char
  deriving DecidableEq

/-- Normalizing line endings in parseSRT: the content.replace of CRLF by LF
followed by the replace of CR by LF, as one left-to-right pass. -/
def normEol : List Char → List Char
  | [] => []
  | '\r' :: '\n' :: rest => '\n' :: normEol rest
  | '\r' :: rest => '\n' :: normEol rest
  | c :: rest => c :: normEol rest

/-- One predicate per character of the timing pattern
dd : dd : dd , ddd  (the \d{2}:\d{2}:\d{2},\d{3} groups). -/
def tsPreds : List (Char → Bool) :=
  [Char.isDigit, Char.isDigit, (· == ':'),
   Char.isDigit, Char.isDigit, (· == ':'),
   Char.isDigit, Char.isDigit, (· == ','),
   Char.isDigit, Char.isDigit, Char.isDigit]

/-- Match a list of single-character predicates against the front of s,
returning the matched run and the remainder. -/
def matchPreds : List (Char → Bool) → List Char → Option (List Char × List Char)
  | [], s => some ([], s)
  | _ :: _, [] => none
  | p :: ps, c :: s =>
    if p c then
      match matchPreds ps s with
      | some (m, r) => some (c :: m, r)
      | none => none
    else none

/-- The literal arrow of the timing line regex. -/
def arrowLit : List Char := (" --> ").data

/-- Attempt of the timing regex at the start of s: a timestamp, the literal
arrow, and a second timestamp; yields the two captured timestamps. -/
def matchTimingAt (s : List Char) : Option (List Char × List Char) :=
  match matchPreds tsPreds s with
  | none => none
  | some (t1, r1) =>
    if arrowLit.isPrefixOf r1 = true then
      match matchPreds tsPreds (r1.drop arrowLit.length) with
      | none => none
      | some (t2, _) => some (t1, t2)
    else none

/-- Leftmost match of the timing regex anywhere in the line
(lines[1].match in parseSRT). -/
def findTiming : List Char → Option (List Char × List Char)
  | [] => none
  | c :: rest =>
    match matchTimingAt (c :: rest) with
    | some r => some r
    | none => findTiming rest

/-- Handling of one block in parseSRT: trim, split into lines, require at
least 3 lines and a timing match on the second line; otherwise the block is
skipped (no push). -/
def parseBlock (block : List Char) : Option SubtitleBlock :=
  let lines := jsSplit ['\n'] (jsTrim block)
  if 3 ≤ lines.length then
    match findTiming (lines.getD 1 []) with
    | some (t1, t2) =>
      some { id := jsTrim (lines.getD 0 []),
             startTime := t1, endTime := t2,
             originalText := jsJoin ['\n'] (lines.drop 2),
             translatedText := [] }
    | none => none
  else none

/-- parseSRT (services/srtParser.ts): normalize line endings, split on blank
lines, keep the blocks that parse. -/
def parseSRT (content : List Char) : List SubtitleBlock :=
  (jsSplit ['\n', '\n'] (normEol content)).filterMap parseBlock

/-- AppState (types.ts). -/
inductive AppState
  | CONFIG
  | UPLOAD
  | PROCESSING
  | COMPLETED
  | ERROR
  deriving DecidableEq

/-- Outcome of one generate call for one batch: ok carries the response
string of a successful call; fail covers a thrown fetch as well as a
non-success HTTP response (both reach the catch of translateBatch). -/
inductive GenOutcome
  | ok (response : List Char)
  | fail
  deriving DecidableEq

/-- translateBatch (services/ollama.ts) given the generate outcome: on
success decode the response against the input texts, on failure return the
input texts (the catch block). -/
def translateBatch (texts : List (List Char)) : GenOutcome → List (List Char)
  | GenOutcome.ok response => translateDecode response texts
  | GenOutcome.fail => texts

/-- The batch size constant of App.tsx. -/
def BATCH_SIZE : Nat := 10

/-- Write one translated text into the block at one index, leaving the other
fields alone; out-of-range indices write nothing (the existence guard on
newBlocks in startTranslation). -/
def setTransAt : List SubtitleBlock → Nat → List Char → List SubtitleBlock
  | [], _, _ => []
  | b :: rest, 0, t => { b with translatedText := t } :: rest
  | b :: rest, n + 1, t => b :: setTransAt rest n t

/-- The forEach over translatedTexts in startTranslation: write text k to
block i + k. -/
def writeBack (blocks : List SubtitleBlock) (i : Nat) :
    List (List Char) → List SubtitleBlock
  | [] => blocks
  | t :: ts => writeBack (setTransAt blocks i t) (i + 1) ts

/-- The batch loop of startTranslation: slice the next BATCH_SIZE blocks,
translate their original texts, write the results back, record the new
processed count, and advance by BATCH_SIZE.  Fuel bounds the number of
iterations; blocks.length iterations are always enough since each one
advances i by BATCH_SIZE. -/
def runFrom (gen : Nat → GenOutcome) :
    Nat → List SubtitleBlock → Nat → Nat → List SubtitleBlock × List Nat
  | 0, blocks, _, _ => (blocks, [])
  | fuel + 1, blocks, i, bIdx =>
    if i < blocks.length then
      let batch := (blocks.drop i).take BATCH_SIZE
      let texts := batch.map (fun b => b.originalText)
      let translated := translateBatch texts (gen bIdx)
      let blocks2 := writeBack blocks i translated
      let res := runFrom gen fuel blocks2 (i + BATCH_SIZE) (bIdx + 1)
      (res.1, (i + batch.length) :: res.2)
    else (blocks, [])

/-- Result of a whole translation run: the final blocks, the sequence of
processed-count values emitted after each batch, and the final AppState. -/
structure RunResult where
  blocks : List SubtitleBlock
  trace : List Nat
  state : AppState
  deriving DecidableEq

/-- startTranslation (App.tsx): run every batch from index 0, then move to
COMPLETED.  translateBatch never throws (its catch returns the originals),
so the loop always runs to exhaustion of the document. -/
def startTranslation (gen : Nat → GenOutcome) (blocks : List SubtitleBlock) :
    RunResult :=
  let r := runFrom gen blocks.length blocks 0 0
  { blocks := r.1, trace := r.2, state := AppState.COMPLETED }

/-- The index windows the loop of startTranslation slices: starting at i,
a window of size min BATCH_SIZE (n - i), then advance by BATCH_SIZE. -/
def windowsFrom : Nat → Nat → Nat → List (Nat × Nat)
  | 0, _, _ => []
  | fuel + 1, n, i =>
    if i < n then (i, min BATCH_SIZE (n - i)) :: windowsFrom fuel n (i + BATCH_SIZE)
    else []

/-- The batch windows of a document of n entries. -/
def batchWindows (n : Nat) : List (Nat × Nat) :=
  windowsFrom n n 0

/-- Concatenation of a list of index lists. -/
def flatCat (l : List (List Nat)) : List Nat :=
  l.foldr (fun a b => a ++ b) []

/-- Running totals of a list of batch sizes, starting from acc. -/
def partialSumsFrom (acc : Nat) : List Nat → List Nat
  | [] => []
  | x :: xs => (acc + x) :: partialSumsFrom (acc + x) xs

/-- Running totals of a list of batch sizes. -/
def partialSums (l : List Nat) : List Nat :=
  partialSumsFrom 0 l

/-- A block with empty fields, used as a getD default. -/
def blankBlock : SubtitleBlock :=
  { id := [], startTime := [], endTime := [], originalText := [], translatedText := [] }

/-- A segment that round-trips on the primary path: fixed by trim (no
leading or trailing whitespace) and free of the delimiter token.  Such a
segment may be empty. -/
def goodSeg (seg : List Char) : Prop :=
  jsTrim seg = seg ∧ hasSub SPLITtok seg = false

theorem jsSplitAux_nil (sep : List Char) (fuel : Nat) : jsSplitAux sep fuel [] = [[]] := by
  cases fuel <;> rfl

theorem jsSplitAux_ne_nil (sep : List Char) (fuel : Nat) (s : List Char) :
    jsSplitAux sep fuel s ≠ [] := by
  induction fuel generalizing s with
  | zero => simp [jsSplitAux]
  | succ n ih =>
    cases s with
    | nil => simp [jsSplitAux]
    | cons c rest =>
      simp only [jsSplitAux]
      split
      · exact List.cons_ne_nil _ _
      · cases hh : jsSplitAux sep n rest with
        | nil => simp
        | cons p ps => simp

theorem jsSplitAux_fuel (sep : List Char) :
    ∀ f1 f2 s, s.length ≤ f1 → s.length ≤ f2 →
      jsSplitAux sep f1 s = jsSplitAux sep f2 s := by
  intro f1
  induction f1 with
  | zero =>
    intro f2 s h1 _
    have hs : s = [] := List.eq_nil_of_length_eq_zero (Nat.le_zero.mp h1)
    subst hs
    rw [jsSplitAux_nil, jsSplitAux_nil]
  | succ n ih =>
    intro f2 s h1 h2
    cases s with
    | nil => rw [jsSplitAux_nil, jsSplitAux_nil]
    | cons c rest =>
      cases f2 with
      | zero => simp at h2
      | succ m =>
        simp only [jsSplitAux]
        split
        · next hcond =>
          have hsep : 1 ≤ sep.length := List.length_pos.mpr hcond.1
          have hlen : ((c :: rest).drop sep.length).length ≤ n := by
            simp only [List.length_drop, List.length_cons]
            simp only [List.length_cons] at h1
            omega
          have hlen2 : ((c :: rest).drop sep.length).length ≤ m := by
            simp only [List.length_drop, List.length_cons]
            simp only [List.length_cons] at h2
            omega
          rw [ih _ _ hlen hlen2]
        · have hr1 : rest.length ≤ n := by
            simp only [List.length_cons] at h1; omega
          have hr2 : rest.length ≤ m := by
            simp only [List.length_cons] at h2; omega
          rw [ih _ _ hr1 hr2]

theorem jsSplit_nil (sep : List Char) : jsSplit sep [] = [[]] := rfl

theorem jsSplit_ne_nil (sep s : List Char) : jsSplit sep s ≠ [] :=
  jsSplitAux_ne_nil sep s.length s

theorem jsSplit_cons_of_prefixMatch (sep s : List Char) (hne : sep ≠ [])
    (hp : sep.isPrefixOf s = true) (hs : s ≠ []) :
    jsSplit sep s = [] :: jsSplit sep (s.drop sep.length) := by
  cases s with
  | nil => exact absurd rfl hs
  | cons c rest =>
    show jsSplitAux sep (c :: rest).length (c :: rest) = _
    simp only [List.length_cons, jsSplitAux]
    rw [if_pos ⟨hne, hp⟩]
    have h1 : ((c :: rest).drop sep.length).length ≤ rest.length := by
      have : 1 ≤ sep.length := List.length_pos.mpr hne
      simp only [List.length_drop, List.length_cons]
      omega
    rw [jsSplitAux_fuel sep rest.length ((c :: rest).drop sep.length).length _ h1 (Nat.le_refl _)]
    rfl

theorem jsSplit_cons_of_noMatch (sep : List Char) (c : Char) (rest : List Char)
    (h : ¬(sep ≠ [] ∧ sep.isPrefixOf (c :: rest) = true)) :
    jsSplit sep (c :: rest) =
      (c :: (jsSplit sep rest).headD []) :: (jsSplit sep rest).tail := by
  show jsSplitAux sep (c :: rest).length (c :: rest) = _
  simp only [List.length_cons, jsSplitAux]
  rw [if_neg h]
  cases hh : jsSplitAux sep rest.length rest with
  | nil => exact absurd hh (jsSplitAux_ne_nil sep rest.length rest)
  | cons p ps =>
    have : jsSplit sep rest = p :: ps := hh
    rw [this]
    rfl

theorem jsSplit_append_of_noMatch (sep : List Char) :
    ∀ (a t : List Char),
      (∀ x y, a = x ++ y → y ≠ [] → sep.isPrefixOf (y ++ t) = false) →
      jsSplit sep (a ++ t) =
        (a ++ (jsSplit sep t).headD []) :: (jsSplit sep t).tail := by
  intro a
  induction a with
  | nil =>
    intro t _
    cases hh : jsSplit sep t with
    | nil => exact absurd hh (jsSplit_ne_nil sep t)
    | cons p ps => simp [hh]
  | cons c a' ih =>
    intro t h
    have hnp : sep.isPrefixOf ((c :: a') ++ t) = false :=
      h [] (c :: a') rfl (by simp)
    rw [List.cons_append, jsSplit_cons_of_noMatch sep c (a' ++ t)
      (by
        intro hcon
        rw [List.cons_append] at hnp
        rw [hcon.2] at hnp
        exact absurd hnp (by simp))]
    have hrec := ih t (by
      intro x y hxy hy
      exact h (c :: x) y (by rw [hxy]; rfl) hy)
    rw [hrec]
    simp

theorem isPrefixOf_append_left (pat u : List Char) : pat.isPrefixOf (pat ++ u) = true := by
  induction pat with
  | nil => simp [List.isPrefixOf]
  | cons p ps ih => simp [List.isPrefixOf, ih]

theorem isPrefixOf_append_cons (u : List Char) :
    ∀ (pat : List Char) (c : Char) (v : List Char),
      pat.isPrefixOf (u ++ c :: v) = true →
      pat.isPrefixOf u = true ∨ c ∈ pat := by
  induction u with
  | nil =>
    intro pat c v h
    cases pat with
    | nil => exact Or.inl rfl
    | cons p ps =>
      simp only [List.nil_append, List.isPrefixOf, Bool.and_eq_true, beq_iff_eq] at h
      exact Or.inr (by simp [h.1])
  | cons a u' ih =>
    intro pat c v h
    cases pat with
    | nil => exact Or.inl rfl
    | cons p ps =>
      simp only [List.cons_append, List.isPrefixOf, Bool.and_eq_true, beq_iff_eq] at h
      rcases ih ps c v h.2 with hl | hr
      · exact Or.inl (by simp [List.isPrefixOf, h.1, hl])
      · exact Or.inr (List.mem_cons_of_mem p hr)

theorem isPrefixOf_false_of_hasSub_false (pat : List Char) :
    ∀ (x s y : List Char), hasSub pat s = false → s = x ++ y →
      pat.isPrefixOf y = false := by
  intro x
  induction x with
  | nil =>
    intro s y h heq
    rw [List.nil_append] at heq
    subst heq
    cases s with
    | nil =>
      cases pat with
      | nil => simp [hasSub] at h
      | cons p ps => rfl
    | cons c r =>
      simp only [hasSub, Bool.or_eq_false_iff] at h
      exact h.1
  | cons a x' ih =>
    intro s y h heq
    subst heq
    simp only [List.cons_append, hasSub, Bool.or_eq_false_iff] at h
    exact ih (x' ++ y) y h.2 rfl

theorem single_concat_inj (a b : List Char) (x y : Char) (h : a ++ [x] = b ++ [y]) :
    a = b ∧ x = y := by
  have h2 := congrArg List.reverse h
  simp only [List.reverse_append, List.reverse_cons, List.reverse_nil, List.nil_append,
    List.cons_append, List.singleton_append] at h2
  obtain ⟨hx, hr⟩ := List.cons.inj h2
  refine ⟨?_, hx⟩
  have := congrArg List.reverse hr
  simpa using this

theorem length_dropWhile_le (p : Char → Bool) (l : List Char) :
    (l.dropWhile p).length ≤ l.length := by
  induction l with
  | nil => simp
  | cons a t ih =>
    rw [List.dropWhile_cons]
    split
    · exact Nat.le_trans ih (by simp)
    · simp

theorem length_jsTrim_le (s : List Char) : (jsTrim s).length ≤ s.length := by
  unfold jsTrim
  calc ((s.dropWhile jsIsWS).reverse.dropWhile jsIsWS).reverse.length
      = ((s.dropWhile jsIsWS).reverse.dropWhile jsIsWS).length := by rw [List.length_reverse]
    _ ≤ (s.dropWhile jsIsWS).reverse.length := length_dropWhile_le _ _
    _ = (s.dropWhile jsIsWS).length := by rw [List.length_reverse]
    _ ≤ s.length := length_dropWhile_le _ _

theorem jsTrim_cons_ws (c : Char) (s : List Char) (h : jsIsWS c = true) :
    jsTrim (c :: s) = jsTrim s := by
  simp [jsTrim, List.dropWhile_cons, h]

theorem jsTrim_concat_ws (s : List Char) (c : Char) (h : jsIsWS c = true) :
    jsTrim (s ++ [c]) = jsTrim s := by
  unfold jsTrim
  rw [List.dropWhile_append]
  split
  · next h' =>
    have hnil : s.dropWhile jsIsWS = [] := List.isEmpty_iff.mp h'
    simp [List.dropWhile_cons, h, hnil]
  · rw [List.reverse_append]
    simp [List.dropWhile_cons, h]

theorem splitTok_not_prefix_nl (X : List Char) :
    SPLITtok.isPrefixOf ('\n' :: X) = false := by
  have h : SPLITtok = '-' :: ("--SPLIT---").data := by decide
  rw [h]
  simp [List.isPrefixOf]

theorem map_trim_jsSplit_nl (X : List Char) :
    (jsSplit SPLITtok ('\n' :: X)).map jsTrim = (jsSplit SPLITtok X).map jsTrim := by
  rw [jsSplit_cons_of_noMatch SPLITtok '\n' X
    (by
      intro hc
      rw [splitTok_not_prefix_nl X] at hc
      exact absurd hc.2 (by simp))]
  cases hh : jsSplit SPLITtok X with
  | nil => exact absurd hh (jsSplit_ne_nil SPLITtok X)
  | cons p ps =>
    simp [hh, jsTrim_cons_ws _ _ (by decide : jsIsWS '\n' = true)]

theorem seg_noMatch (s0 : List Char) (hsub : hasSub SPLITtok s0 = false) (t' : List Char) :
    ∀ x y, s0 ++ ['\n'] = x ++ y → y ≠ [] →
      SPLITtok.isPrefixOf (y ++ (SPLITtok ++ ('\n' :: t'))) = false := by
  intro x y heq hy
  have hyd : y.dropLast ++ [y.getLast hy] = y := List.dropLast_append_getLast hy
  have heq2 : s0 ++ ['\n'] = (x ++ y.dropLast) ++ [y.getLast hy] := by
    rw [List.append_assoc, hyd]
    exact heq
  obtain ⟨hseq, hnl⟩ := single_concat_inj s0 (x ++ y.dropLast) '\n' (y.getLast hy) heq2
  cases hb : SPLITtok.isPrefixOf (y ++ (SPLITtok ++ ('\n' :: t')))
  · rfl
  · exfalso
    rw [← hyd, ← hnl, List.append_assoc, List.singleton_append] at hb
    rcases isPrefixOf_append_cons y.dropLast SPLITtok '\n' _ hb with hl | hr
    · have hf := isPrefixOf_false_of_hasSub_false SPLITtok x s0 y.dropLast hsub hseq
      rw [hf] at hl
      exact absurd hl (by simp)
    · exact absurd hr (by decide)

theorem jsJoin_cons_cons (s0 s1 : List Char) (S : List (List Char)) :
    jsJoin SEPtok (s0 :: s1 :: S) = s0 ++ SEPtok ++ jsJoin SEPtok (s1 :: S) := rfl

theorem split_join_map_trim :
    ∀ (S : List (List Char)), (∀ seg ∈ S, goodSeg seg) → S ≠ [] →
      (jsSplit SPLITtok (jsJoin SEPtok S)).map jsTrim = S := by
  intro S
  induction S with
  | nil => intro _ h; exact absurd rfl h
  | cons s0 S' ih =>
    intro hgood _
    have hs0 := hgood s0 (by simp)
    cases S' with
    | nil =>
      show (jsSplit SPLITtok (jsJoin SEPtok [s0])).map jsTrim = [s0]
      have hjs : jsJoin SEPtok [s0] = s0 := rfl
      rw [hjs]
      have hcond : ∀ x y, s0 = x ++ y → y ≠ [] →
          SPLITtok.isPrefixOf (y ++ ([] : List Char)) = false := by
        intro x y heq _
        rw [List.append_nil]
        exact isPrefixOf_false_of_hasSub_false SPLITtok x s0 y hs0.2 heq
      have hspl := jsSplit_append_of_noMatch SPLITtok s0 [] hcond
      rw [List.append_nil] at hspl
      rw [hspl, jsSplit_nil]
      simp [hs0.1]
    | cons s1 S'' =>
      have hjoin : jsJoin SEPtok (s0 :: s1 :: S'') =
          (s0 ++ ['\n']) ++ (SPLITtok ++ ('\n' :: jsJoin SEPtok (s1 :: S''))) := by
        rw [jsJoin_cons_cons]
        have hsep : SEPtok = ['\n'] ++ SPLITtok ++ ['\n'] := by decide
        rw [hsep]
        simp [List.append_assoc]
      rw [hjoin]
      rw [jsSplit_append_of_noMatch SPLITtok (s0 ++ ['\n']) _
        (seg_noMatch s0 hs0.2 (jsJoin SEPtok (s1 :: S'')))]
      have hsp : jsSplit SPLITtok (SPLITtok ++ ('\n' :: jsJoin SEPtok (s1 :: S''))) =
          [] :: jsSplit SPLITtok ('\n' :: jsJoin SEPtok (s1 :: S'')) := by
        rw [jsSplit_cons_of_prefixMatch SPLITtok _ (by decide) (isPrefixOf_append_left _ _)
          (by
            intro hcon
            exact absurd (List.append_eq_nil.mp hcon).1 (by decide))]
        rw [List.drop_left]
      rw [hsp]
      simp only [List.headD_cons, List.tail_cons]
      rw [List.map_cons]
      have hrest : (jsSplit SPLITtok ('\n' :: jsJoin SEPtok (s1 :: S''))).map jsTrim
          = s1 :: S'' := by
        rw [map_trim_jsSplit_nl]
        exact ih (fun seg hs => hgood seg (by simp [hs])) (by simp)
      rw [hrest]
      congr 1
      rw [List.append_nil]
      rw [jsTrim_concat_ws s0 '\n' (by decide)]
      exact hs0.1

theorem isPrefixOf_append_right (p : List Char) :
    ∀ (Y Z : List Char), p.isPrefixOf Y = true → p.isPrefixOf (Y ++ Z) = true := by
  induction p with
  | nil => intro Y Z _; simp [List.isPrefixOf]
  | cons a p' ih =>
    intro Y Z h
    cases Y with
    | nil => simp [List.isPrefixOf] at h
    | cons b Y' =>
      simp only [List.cons_append, List.isPrefixOf, Bool.and_eq_true, beq_iff_eq] at h ⊢
      exact ⟨h.1, ih Y' Z h.2⟩

theorem length_le_of_isPrefixOf (p : List Char) :
    ∀ (Y : List Char), p.isPrefixOf Y = true → p.length ≤ Y.length := by
  induction p with
  | nil => intro Y _; simp
  | cons a p' ih =>
    intro Y h
    cases Y with
    | nil => simp [List.isPrefixOf] at h
    | cons b Y' =>
      simp only [List.isPrefixOf, Bool.and_eq_true] at h
      simp only [List.length_cons]
      exact Nat.succ_le_succ (ih Y' h.2)

theorem splitTok_not_prefix_ws (c : Char) (hc : jsIsWS c = true) (X : List Char) :
    SPLITtok.isPrefixOf (c :: X) = false := by
  have h : SPLITtok = '-' :: ("--SPLIT---").data := by decide
  rw [h]
  have hne : ('-' == c) = false := by
    cases hq : ('-' == c)
    · rfl
    · have hcc : '-' = c := beq_iff_eq.mp hq
      rw [← hcc] at hc
      exact absurd hc (by decide)
  simp [List.isPrefixOf, hne]

theorem splitTok_no_ws : ∀ ch ∈ SPLITtok, jsIsWS ch = false := by decide

theorem drop_append_of_len_le :
    ∀ (n : Nat) (Y Z : List Char), n ≤ Y.length → (Y ++ Z).drop n = Y.drop n ++ Z := by
  intro n
  induction n with
  | zero => intro Y Z _; rfl
  | succ m ih =>
    intro Y Z h
    cases Y with
    | nil => simp at h
    | cons b Y' =>
      simp only [List.cons_append, List.drop_succ_cons]
      exact ih Y' Z (by simp only [List.length_cons] at h; omega)

theorem jsSplit_concat_ws (c : Char) (hc : jsIsWS c = true) :
    ∀ (n : Nat) (X : List Char), X.length ≤ n →
      ∃ (init : List (List Char)) (last : List Char),
        jsSplit SPLITtok X = init ++ [last] ∧
        jsSplit SPLITtok (X ++ [c]) = init ++ [last ++ [c]] := by
  intro n
  induction n with
  | zero =>
    intro X hX
    have hXn : X = [] := List.eq_nil_of_length_eq_zero (Nat.le_zero.mp hX)
    subst hXn
    refine ⟨[], [], by simp [jsSplit_nil], ?_⟩
    rw [List.nil_append]
    rw [jsSplit_cons_of_noMatch SPLITtok c []
      (by
        intro hcon
        rw [splitTok_not_prefix_ws c hc []] at hcon
        exact absurd hcon.2 (by simp))]
    rw [jsSplit_nil]
    simp
  | succ m ih =>
    intro X hX
    cases X with
    | nil => exact ih [] (by simp)
    | cons a X' =>
      by_cases hp : SPLITtok.isPrefixOf (a :: X') = true
      · have hlen : SPLITtok.length ≤ (a :: X').length := length_le_of_isPrefixOf _ _ hp
        have hp2 : SPLITtok.isPrefixOf ((a :: X') ++ [c]) = true :=
          isPrefixOf_append_right _ _ _ hp
        have hd : ((a :: X') ++ [c]).drop SPLITtok.length =
            ((a :: X').drop SPLITtok.length) ++ [c] :=
          drop_append_of_len_le SPLITtok.length (a :: X') [c] hlen
        obtain ⟨init, last, h1, h2⟩ := ih ((a :: X').drop SPLITtok.length) (by
          simp only [List.length_drop, List.length_cons]
          have h1tok : 1 ≤ SPLITtok.length := by decide
          simp only [List.length_cons] at hX
          omega)
        refine ⟨[] :: init, last, ?_, ?_⟩
        · rw [jsSplit_cons_of_prefixMatch SPLITtok (a :: X') (by decide) hp (by simp), h1]
          rfl
        · rw [jsSplit_cons_of_prefixMatch SPLITtok ((a :: X') ++ [c]) (by decide) hp2
            (by simp)]
          rw [hd, h2]
          rfl
      · have hp2 : SPLITtok.isPrefixOf ((a :: X') ++ [c]) = false := by
          cases hq : SPLITtok.isPrefixOf ((a :: X') ++ [c])
          · rfl
          · exfalso
            rcases isPrefixOf_append_cons (a :: X') SPLITtok c [] hq with hl | hr
            · exact hp hl
            · have hws := splitTok_no_ws c hr
              rw [hc] at hws
              exact absurd hws (by simp)
        obtain ⟨init, last, h1, h2⟩ := ih X' (by simp only [List.length_cons] at hX; omega)
        have e1 : jsSplit SPLITtok (a :: X') =
            (a :: (jsSplit SPLITtok X').headD []) :: (jsSplit SPLITtok X').tail :=
          jsSplit_cons_of_noMatch SPLITtok a X' (by intro hcon; exact hp hcon.2)
        have e2 : jsSplit SPLITtok (a :: (X' ++ [c])) =
            (a :: (jsSplit SPLITtok (X' ++ [c])).headD []) ::
              (jsSplit SPLITtok (X' ++ [c])).tail :=
          jsSplit_cons_of_noMatch SPLITtok a (X' ++ [c]) (by
            intro hcon
            have hcon2 := hcon.2
            rw [show a :: (X' ++ [c]) = (a :: X') ++ [c] from rfl, hp2] at hcon2
            exact absurd hcon2 (by simp))
        cases init with
        | nil =>
          rw [List.nil_append] at h1 h2
          refine ⟨[], a :: last, ?_, ?_⟩
          · rw [e1, h1]
            simp
          · rw [show (a :: X') ++ [c] = a :: (X' ++ [c]) from rfl, e2, h2]
            simp
        | cons i0 irest =>
          refine ⟨(a :: i0) :: irest, last, ?_, ?_⟩
          · rw [e1, h1]
            simp
          · rw [show (a :: X') ++ [c] = a :: (X' ++ [c]) from rfl, e2, h2]
            simp

theorem map_trim_jsSplit_ws_cons (c : Char) (hc : jsIsWS c = true) (X : List Char) :
    (jsSplit SPLITtok (c :: X)).map jsTrim = (jsSplit SPLITtok X).map jsTrim := by
  rw [jsSplit_cons_of_noMatch SPLITtok c X
    (by
      intro hcon
      rw [splitTok_not_prefix_ws c hc X] at hcon
      exact absurd hcon.2 (by simp))]
  cases hh : jsSplit SPLITtok X with
  | nil => exact absurd hh (jsSplit_ne_nil SPLITtok X)
  | cons p ps => simp [hh, jsTrim_cons_ws _ _ hc]

theorem map_trim_jsSplit_ws_concat (c : Char) (hc : jsIsWS c = true) (X : List Char) :
    (jsSplit SPLITtok (X ++ [c])).map jsTrim = (jsSplit SPLITtok X).map jsTrim := by
  obtain ⟨init, last, h1, h2⟩ := jsSplit_concat_ws c hc X.length X (Nat.le_refl _)
  rw [h1, h2, List.map_append, List.map_append]
  simp [jsTrim_concat_ws last c hc]

theorem map_trim_jsSplit_dropWhile (X : List Char) :
    (jsSplit SPLITtok (X.dropWhile jsIsWS)).map jsTrim =
      (jsSplit SPLITtok X).map jsTrim := by
  induction X with
  | nil => rfl
  | cons a X' ih =>
    rw [List.dropWhile_cons]
    split
    · next ha =>
      rw [map_trim_jsSplit_ws_cons a ha X']
      exact ih
    · rfl

theorem map_trim_jsSplit_rt :
    ∀ (n : Nat) (X : List Char), X.length ≤ n →
      (jsSplit SPLITtok ((X.reverse.dropWhile jsIsWS)).reverse).map jsTrim =
        (jsSplit SPLITtok X).map jsTrim := by
  intro n
  induction n with
  | zero =>
    intro X h
    have hXn : X = [] := List.eq_nil_of_length_eq_zero (Nat.le_zero.mp h)
    subst hXn
    rfl
  | succ m ih =>
    intro X h
    cases hr : X.reverse with
    | nil =>
      have hXn : X = [] := by
        rw [← List.reverse_reverse X, hr]
        rfl
      rw [hXn]
      rfl
    | cons c R' =>
      have hX : X = R'.reverse ++ [c] := by
        rw [← List.reverse_reverse X, hr]
        simp
      by_cases hc : jsIsWS c = true
      · rw [List.dropWhile_cons, if_pos hc]
        have hlen : R'.reverse.length ≤ m := by
          have hXlen : X.length = R'.length + 1 := by rw [hX]; simp
          simp only [List.length_reverse]
          omega
        have hih := ih R'.reverse hlen
        rw [List.reverse_reverse] at hih
        rw [hih, hX]
        rw [map_trim_jsSplit_ws_concat c hc R'.reverse]
      · rw [List.dropWhile_cons, if_neg (by simp [hc])]
        rw [← hr, List.reverse_reverse]

theorem map_trim_jsSplit_trim (X : List Char) :
    (jsSplit SPLITtok (jsTrim X)).map jsTrim = (jsSplit SPLITtok X).map jsTrim := by
  show (jsSplit SPLITtok
    (((X.dropWhile jsIsWS).reverse.dropWhile jsIsWS)).reverse).map jsTrim = _
  rw [map_trim_jsSplit_rt (X.dropWhile jsIsWS).length (X.dropWhile jsIsWS) (Nat.le_refl _)]
  exact map_trim_jsSplit_dropWhile X

theorem round_trip_decode (S : List (List Char)) (hgood : ∀ seg ∈ S, goodSeg seg)
    (hne : S ≠ []) :
    translateDecode (encodeSegs S) S = S ∧
    translateDecodePath (encodeSegs S) S = DecodePath.primary := by
  have hmts := map_trim_jsSplit_trim (jsJoin SEPtok S)
  rw [split_join_map_trim S hgood hne] at hmts
  constructor
  · unfold translateDecode encodeSegs
    simp only [hmts]
    simp
  · unfold translateDecodePath encodeSegs
    simp only [hmts]
    simp

theorem translateDecode_length (raw : List Char) (texts : List (List Char)) :
    (translateDecode raw texts).length = texts.length := by
  unfold translateDecode
  by_cases h1 : (jsSplit SPLITtok (jsTrim raw)).length = texts.length
  · simp [h1]
  · by_cases h2 : ((jsSplit ['\n'] (jsTrim raw)).filter nonBlank).length = texts.length
    · simp [h1, h2]
    · simp [h1, h2]

theorem translateDecode_fallback (raw : List Char) (texts : List (List Char))
    (h1 : (jsSplit SPLITtok (jsTrim raw)).length ≠ texts.length)
    (h2 : ((jsSplit ['\n'] (jsTrim raw)).filter nonBlank).length ≠ texts.length) :
    translateDecode raw texts = texts := by
  unfold translateDecode
  simp [h1, h2]

theorem translateDecode_secondary (raw : List Char) (texts : List (List Char))
    (h1 : (jsSplit SPLITtok (jsTrim raw)).length ≠ texts.length)
    (h2 : ((jsSplit ['\n'] (jsTrim raw)).filter nonBlank).length = texts.length) :
    translateDecode raw texts = (jsSplit ['\n'] (jsTrim raw)).filter nonBlank := by
  unfold translateDecode
  simp [h1, h2]

theorem translateBatch_length (texts : List (List Char)) (g : GenOutcome) :
    (translateBatch texts g).length = texts.length := by
  cases g with
  | ok response => exact translateDecode_length response texts
  | fail => rfl

theorem cleanHost_scheme (h : List Char) : hasHttpScheme (cleanHost h) = true := by
  by_cases hs : hasHttpScheme (cleanHostPre h) = true
  · simp only [cleanHost, if_pos hs]
    exact hs
  · simp only [cleanHost, if_neg hs]
    unfold hasHttpScheme
    rw [Bool.or_eq_true]
    left
    have hmap : ("http://").data.map lowerAscii = ("http://").data := by decide
    rw [List.map_append, hmap]
    exact isPrefixOf_append_left _ _

theorem cleanHost_ws_cons (c : Char) (h : List Char) (hws : jsIsWS c = true) :
    cleanHost (c :: h) = cleanHost h := by
  unfold cleanHost cleanHostPre
  rw [jsTrim_cons_ws c h hws]

theorem cleanHost_ws_concat (h : List Char) (c : Char) (hws : jsIsWS c = true) :
    cleanHost (h ++ [c]) = cleanHost h := by
  unfold cleanHost cleanHostPre
  rw [jsTrim_concat_ws h c hws]

theorem parseBlock_none_of_short (b : List Char)
    (h : (jsSplit ['\n'] (jsTrim b)).length < 3) : parseBlock b = none := by
  have h3 : ¬ 3 ≤ (jsSplit ['\n'] (jsTrim b)).length := by omega
  simp [parseBlock, h3]

theorem parseBlock_none_of_timing (b : List Char)
    (ht : findTiming ((jsSplit ['\n'] (jsTrim b)).getD 1 []) = none) :
    parseBlock b = none := by
  by_cases h3 : 3 ≤ (jsSplit ['\n'] (jsTrim b)).length
  · simp only [List.getD_eq_getElem?_getD] at ht
    simp [parseBlock, h3, ht]
  · simp [parseBlock, h3]

theorem setTransAt_length :
    ∀ (blocks : List SubtitleBlock) (k : Nat) (t : List Char),
      (setTransAt blocks k t).length = blocks.length := by
  intro blocks
  induction blocks with
  | nil => intro k t; rfl
  | cons b rest ih =>
    intro k t
    cases k with
    | zero => rfl
    | succ n => simp [setTransAt, ih]

theorem setTransAt_getElem? :
    ∀ (blocks : List SubtitleBlock) (k : Nat) (t : List Char) (j : Nat),
      (setTransAt blocks k t)[j]? =
        if j = k then (blocks[j]?).map (fun b => { b with translatedText := t })
        else blocks[j]? := by
  intro blocks
  induction blocks with
  | nil =>
    intro k t j
    simp [setTransAt]
  | cons b rest ih =>
    intro k t j
    cases k with
    | zero =>
      cases j with
      | zero => simp [setTransAt]
      | succ m => simp [setTransAt]
    | succ n =>
      cases j with
      | zero => simp [setTransAt]
      | succ m => simp [setTransAt, ih]

theorem setTransAt_map (f : SubtitleBlock → List Char)
    (hf : ∀ b t, f { b with translatedText := t } = f b) :
    ∀ (blocks : List SubtitleBlock) (k : Nat) (t : List Char),
      (setTransAt blocks k t).map f = blocks.map f := by
  intro blocks
  induction blocks with
  | nil => intro k t; rfl
  | cons b rest ih =>
    intro k t
    cases k with
    | zero => simp [setTransAt, hf]
    | succ n => simp [setTransAt, ih]

theorem writeBack_length :
    ∀ (ts : List (List Char)) (blocks : List SubtitleBlock) (i : Nat),
      (writeBack blocks i ts).length = blocks.length := by
  intro ts
  induction ts with
  | nil => intro blocks i; rfl
  | cons t ts ih =>
    intro blocks i
    show (writeBack (setTransAt blocks i t) (i + 1) ts).length = blocks.length
    rw [ih, setTransAt_length]

theorem writeBack_map (f : SubtitleBlock → List Char)
    (hf : ∀ b t, f { b with translatedText := t } = f b) :
    ∀ (ts : List (List Char)) (blocks : List SubtitleBlock) (i : Nat),
      (writeBack blocks i ts).map f = blocks.map f := by
  intro ts
  induction ts with
  | nil => intro blocks i; rfl
  | cons t ts ih =>
    intro blocks i
    show (writeBack (setTransAt blocks i t) (i + 1) ts).map f = blocks.map f
    rw [ih, setTransAt_map f hf]

theorem writeBack_getElem? :
    ∀ (ts : List (List Char)) (blocks : List SubtitleBlock) (i j : Nat),
      (writeBack blocks i ts)[j]? =
        if i ≤ j ∧ j < i + ts.length then
          (blocks[j]?).map (fun b => { b with translatedText := ts.getD (j - i) [] })
        else blocks[j]? := by
  intro ts
  induction ts with
  | nil =>
    intro blocks i j
    rw [if_neg (by simp only [List.length_nil]; omega)]
    rfl
  | cons t ts ih =>
    intro blocks i j
    show (writeBack (setTransAt blocks i t) (i + 1) ts)[j]? = _
    rw [ih (setTransAt blocks i t) (i + 1) j]
    by_cases h1 : i + 1 ≤ j ∧ j < i + 1 + ts.length
    · rw [if_pos h1, if_pos (by simp only [List.length_cons]; omega)]
      rw [setTransAt_getElem?, if_neg (by omega)]
      have hidx : j - i = (j - (i + 1)) + 1 := by omega
      rw [hidx, List.getD_cons_succ]
    · rw [if_neg h1]
      by_cases h2 : j = i
      · rw [setTransAt_getElem?, if_pos h2,
          if_pos (by simp only [List.length_cons]; omega)]
        have hidx : j - i = 0 := by omega
        rw [hidx, List.getD_cons_zero]
      · rw [setTransAt_getElem?, if_neg h2,
          if_neg (by simp only [List.length_cons]; omega)]

theorem runFrom_blocks_length (gen : Nat → GenOutcome) :
    ∀ (fuel : Nat) (blocks : List SubtitleBlock) (i bIdx : Nat),
      (runFrom gen fuel blocks i bIdx).1.length = blocks.length := by
  intro fuel
  induction fuel with
  | zero => intro blocks i bIdx; rfl
  | succ n ih =>
    intro blocks i bIdx
    by_cases h : i < blocks.length
    · simp only [runFrom, if_pos h]
      rw [ih, writeBack_length]
    · simp only [runFrom, if_neg h]

theorem runFrom_blocks_map (gen : Nat → GenOutcome) (f : SubtitleBlock → List Char)
    (hf : ∀ b t, f { b with translatedText := t } = f b) :
    ∀ (fuel : Nat) (blocks : List SubtitleBlock) (i bIdx : Nat),
      (runFrom gen fuel blocks i bIdx).1.map f = blocks.map f := by
  intro fuel
  induction fuel with
  | zero => intro blocks i bIdx; rfl
  | succ n ih =>
    intro blocks i bIdx
    by_cases h : i < blocks.length
    · simp only [runFrom, if_pos h]
      rw [ih, writeBack_map f hf]
    · simp only [runFrom, if_neg h]

theorem runFrom_pres_below (gen : Nat → GenOutcome) :
    ∀ (fuel : Nat) (blocks : List SubtitleBlock) (i bIdx j : Nat), j < i →
      (runFrom gen fuel blocks i bIdx).1[j]? = blocks[j]? := by
  intro fuel
  induction fuel with
  | zero => intro blocks i bIdx j _; rfl
  | succ n ih =>
    intro blocks i bIdx j hj
    by_cases h : i < blocks.length
    · simp only [runFrom, if_pos h]
      rw [ih _ _ _ _ (by omega)]
      rw [writeBack_getElem?, if_neg (by omega)]
    · simp only [runFrom, if_neg h]

theorem runFrom_trace (gen : Nat → GenOutcome) :
    ∀ (fuel : Nat) (blocks : List SubtitleBlock) (i bIdx : Nat),
      (runFrom gen fuel blocks i bIdx).2 =
        (windowsFrom fuel blocks.length i).map (fun p => p.1 + p.2) := by
  intro fuel
  induction fuel with
  | zero => intro blocks i bIdx; rfl
  | succ n ih =>
    intro blocks i bIdx
    by_cases h : i < blocks.length
    · simp only [runFrom, windowsFrom, if_pos h, List.map_cons]
      rw [ih]
      rw [writeBack_length]
      have hlen : ((blocks.drop i).take BATCH_SIZE).length = min BATCH_SIZE (blocks.length - i) := by
        rw [List.length_take, List.length_drop]
      rw [hlen]
    · simp only [runFrom, windowsFrom, if_neg h, List.map_nil]

theorem windowsFrom_nil (fuel n i : Nat) (h : ¬ i < n) : windowsFrom fuel n i = [] := by
  cases fuel with
  | zero => rfl
  | succ m => simp [windowsFrom, h]

theorem windowsFrom_cover :
    ∀ (fuel n i : Nat), n - i ≤ fuel →
      flatCat ((windowsFrom fuel n i).map (fun p => List.range' p.1 p.2)) =
        List.range' i (n - i) := by
  intro fuel
  induction fuel with
  | zero =>
    intro n i h
    have : n - i = 0 := by omega
    rw [this]
    rfl
  | succ m ih =>
    intro n i h
    by_cases hlt : i < n
    · simp only [windowsFrom, if_pos hlt, List.map_cons]
      show List.range' i (min BATCH_SIZE (n - i)) ++
        flatCat ((windowsFrom m n (i + BATCH_SIZE)).map (fun p => List.range' p.1 p.2)) = _
      by_cases hsmall : n - i ≤ BATCH_SIZE
      · have hmin : min BATCH_SIZE (n - i) = n - i := by
          simp only [BATCH_SIZE] at hsmall ⊢
          omega
        rw [hmin]
        rw [windowsFrom_nil m n (i + BATCH_SIZE) (by simp only [BATCH_SIZE] at hsmall ⊢; omega)]
        simp [flatCat]
      · have hmin : min BATCH_SIZE (n - i) = BATCH_SIZE := by
          simp only [BATCH_SIZE] at hsmall ⊢
          omega
        rw [hmin]
        rw [ih n (i + BATCH_SIZE) (by simp only [BATCH_SIZE] at hsmall ⊢; omega)]
        rw [List.range'_append_1 i BATCH_SIZE (n - (i + BATCH_SIZE))]
        have : n - (i + BATCH_SIZE) + BATCH_SIZE = n - i := by
          simp only [BATCH_SIZE] at hsmall ⊢
          omega
        rw [this]
    · rw [windowsFrom_nil (m + 1) n i hlt]
      have : n - i = 0 := by omega
      rw [this]
      rfl

theorem windowsFrom_sizes :
    ∀ (fuel n i : Nat), ∀ p ∈ windowsFrom fuel n i, 0 < p.2 ∧ p.2 ≤ BATCH_SIZE := by
  intro fuel
  induction fuel with
  | zero => intro n i p hp; simp [windowsFrom] at hp
  | succ m ih =>
    intro n i p hp
    by_cases hlt : i < n
    · simp only [windowsFrom, if_pos hlt, List.mem_cons] at hp
      rcases hp with hp | hp
      · subst hp
        constructor
        · simp only [BATCH_SIZE]
          omega
        · simp only [BATCH_SIZE]
          omega
      · exact ih n (i + BATCH_SIZE) p hp
    · rw [windowsFrom_nil (m + 1) n i hlt] at hp
      simp at hp

theorem windowsFrom_partialSums :
    ∀ (fuel n i : Nat),
      (windowsFrom fuel n i).map (fun p => p.1 + p.2) =
        partialSumsFrom i ((windowsFrom fuel n i).map Prod.snd) := by
  intro fuel
  induction fuel with
  | zero => intro n i; rfl
  | succ m ih =>
    intro n i
    by_cases hlt : i < n
    · simp only [windowsFrom, if_pos hlt, List.map_cons]
      show (i + min BATCH_SIZE (n - i)) :: _ = partialSumsFrom i (min BATCH_SIZE (n - i) :: _)
      rw [partialSumsFrom]
      by_cases hsmall : n - i ≤ BATCH_SIZE
      · rw [windowsFrom_nil m n (i + BATCH_SIZE) (by simp only [BATCH_SIZE] at hsmall ⊢; omega)]
        rfl
      · have hmin : min BATCH_SIZE (n - i) = BATCH_SIZE := by
          simp only [BATCH_SIZE] at hsmall ⊢
          omega
        rw [hmin, ih]
    · rw [windowsFrom_nil (m + 1) n i hlt]
      rfl

theorem chain_partialSumsFrom :
    ∀ (l : List Nat) (acc : Nat), List.Chain' (· ≤ ·) (acc :: partialSumsFrom acc l) := by
  intro l
  induction l with
  | nil => intro acc; exact List.chain'_singleton acc
  | cons x xs ih =>
    intro acc
    rw [partialSumsFrom]
    exact List.chain'_cons.mpr ⟨Nat.le_add_right acc x, ih (acc + x)⟩

theorem windowsFrom_last :
    ∀ (fuel n i : Nat), n - i ≤ fuel → i ≤ n →
      (i :: (windowsFrom fuel n i).map (fun p => p.1 + p.2)).getLast? = some n := by
  intro fuel
  induction fuel with
  | zero =>
    intro n i h1 h2
    have : i = n := by omega
    subst this
    rfl
  | succ m ih =>
    intro n i h1 h2
    by_cases hlt : i < n
    · simp only [windowsFrom, if_pos hlt, List.map_cons]
      rw [List.getLast?_cons_cons]
      by_cases hsmall : n - i ≤ BATCH_SIZE
      · have hmin : i + min BATCH_SIZE (n - i) = n := by
          simp only [BATCH_SIZE] at hsmall ⊢
          omega
        rw [windowsFrom_nil m n (i + BATCH_SIZE) (by simp only [BATCH_SIZE] at hsmall ⊢; omega)]
        simp [hmin]
      · have hmin : i + min BATCH_SIZE (n - i) = i + BATCH_SIZE := by
          simp only [BATCH_SIZE] at hsmall ⊢
          omega
        rw [hmin]
        exact ih n (i + BATCH_SIZE) (by simp only [BATCH_SIZE] at hsmall ⊢; omega)
          (by simp only [BATCH_SIZE] at hsmall ⊢; omega)
    · rw [windowsFrom_nil (m + 1) n i hlt]
      have : i = n := by omega
      subst this
      rfl

theorem runFrom_char (gen : Nat → GenOutcome) :
    ∀ (fuel : Nat) (blocks : List SubtitleBlock) (i bIdx j : Nat),
      i ≤ j → j < blocks.length → blocks.length - i ≤ fuel →
      (runFrom gen fuel blocks i bIdx).1[j]? =
        (blocks[j]?).map (fun blk =>
          { blk with translatedText :=
              (translateBatch
                (((blocks.map (fun bb => bb.originalText)).drop
                    (i + BATCH_SIZE * ((j - i) / BATCH_SIZE))).take BATCH_SIZE)
                (gen (bIdx + (j - i) / BATCH_SIZE))).getD ((j - i) % BATCH_SIZE) [] }) := by
  intro fuel
  induction fuel with
  | zero =>
    intro blocks i bIdx j h1 h2 h3
    omega
  | succ m ih =>
    intro blocks i bIdx j h1 h2 h3
    have hlt : i < blocks.length := by omega
    simp only [runFrom, if_pos hlt]
    have hlen : (translateBatch (((blocks.drop i).take BATCH_SIZE).map
        (fun b => b.originalText)) (gen bIdx)).length = min BATCH_SIZE (blocks.length - i) := by
      rw [translateBatch_length, List.length_map, List.length_take, List.length_drop]
    by_cases hcase : j < i + BATCH_SIZE
    · rw [runFrom_pres_below gen m _ (i + BATCH_SIZE) (bIdx + 1) j hcase]
      rw [writeBack_getElem?]
      rw [if_pos ⟨h1, by rw [hlen]; simp only [BATCH_SIZE] at hcase ⊢; omega⟩]
      have hdiv : (j - i) / BATCH_SIZE = 0 := by
        simp only [BATCH_SIZE] at hcase ⊢
        omega
      have hmod : (j - i) % BATCH_SIZE = j - i := by
        simp only [BATCH_SIZE] at hcase ⊢
        omega
      rw [hdiv, hmod, Nat.mul_zero, Nat.add_zero, Nat.add_zero]
      rw [List.map_take, List.map_drop]
    · rw [ih (writeBack blocks i (translateBatch (((blocks.drop i).take BATCH_SIZE).map
          (fun b => b.originalText)) (gen bIdx))) (i + BATCH_SIZE) (bIdx + 1) j
        (by omega) (by rw [writeBack_length]; exact h2)
        (by rw [writeBack_length]; simp only [BATCH_SIZE] at h3 ⊢; omega)]
      rw [writeBack_getElem?, if_neg (by rw [hlen]; simp only [BATCH_SIZE] at hcase ⊢; omega)]
      rw [writeBack_map (fun bb => bb.originalText) (fun b t => rfl)]
      have e1 : bIdx + 1 + (j - (i + BATCH_SIZE)) / BATCH_SIZE = bIdx + (j - i) / BATCH_SIZE := by
        simp only [BATCH_SIZE] at hcase ⊢
        omega
      have e2 : i + BATCH_SIZE + BATCH_SIZE * ((j - (i + BATCH_SIZE)) / BATCH_SIZE) =
          i + BATCH_SIZE * ((j - i) / BATCH_SIZE) := by
        simp only [BATCH_SIZE] at hcase ⊢
        omega
      have e3 : (j - (i + BATCH_SIZE)) % BATCH_SIZE = (j - i) % BATCH_SIZE := by
        simp only [BATCH_SIZE] at hcase ⊢
        omega
      rw [e1, e2, e3]

/-- C1: for every payload and every input segment sequence, decode returns a
sequence of exactly texts.length elements; and whenever neither the delimiter
split nor the blank-filtered newline split of the trimmed payload has
texts.length pieces, decode returns the original input segments unchanged. -/
theorem claim_C1_decode_length_failsafe (raw : List Char) (texts : List (List Char)) :
    (translateDecode raw texts).length = texts.length ∧
    ((jsSplit SPLITtok (jsTrim raw)).length ≠ texts.length →
      ((jsSplit ['\n'] (jsTrim raw)).filter nonBlank).length ≠ texts.length →
      translateDecode raw texts = texts) :=
  ⟨translateDecode_length raw texts, fun h1 h2 => translateDecode_fallback raw texts h1 h2⟩

/-- Witness for C1: a one-piece payload against two expected segments fails
both splits and decode returns the originals. -/
theorem claim_C1_witness :
    (jsSplit SPLITtok (jsTrim (("x").data))).length ≠ 2 ∧
    ((jsSplit ['\n'] (jsTrim (("x").data))).filter nonBlank).length ≠ 2 ∧
    translateDecode (("x").data) [("a").data, ("b").data] = [("a").data, ("b").data] :=
  ⟨by decide, by decide,
   (claim_C1_decode_length_failsafe (("x").data) [("a").data, ("b").data]).2
     (by decide) (by decide)⟩

/-- C2 counterexample: the round trip fails for an arbitrary segment sequence:
the segment with a leading space comes back trimmed, so decode of encode is
not the identity on all non-empty sequences. -/
theorem claim_C2_counterexample :
    translateDecode (encodeSegs [(" a").data]) [(" a").data] ≠ [(" a").data] := by
  decide

/-- C2 amended: decode of encode is the identity, reached through the
primary delimiter-split branch, on every non-empty segment sequence whose
segments carry no leading or trailing whitespace and do not contain the
delimiter token (segments may be empty or hold interior line breaks). -/
theorem claim_C2_round_trip (S : List (List Char)) (hne : S ≠ [])
    (hgood : ∀ seg ∈ S, jsTrim seg = seg ∧ hasSub SPLITtok seg = false) :
    translateDecode (encodeSegs S) S = S ∧
    translateDecodePath (encodeSegs S) S = DecodePath.primary :=
  round_trip_decode S (fun seg hs => hgood seg hs) hne

/-- Witness for C2: a concrete three-segment sequence, with an empty middle
segment, satisfying the side conditions round-trips on the primary path. -/
theorem claim_C2_witness :
    ([("abc").data, [], ("d e").data] ≠ ([] : List (List Char))) ∧
    (∀ seg ∈ [("abc").data, ([] : List Char), ("d e").data],
      jsTrim seg = seg ∧ hasSub SPLITtok seg = false) ∧
    translateDecode (encodeSegs [("abc").data, [], ("d e").data])
      [("abc").data, [], ("d e").data] = [("abc").data, [], ("d e").data] ∧
    translateDecodePath (encodeSegs [("abc").data, [], ("d e").data])
      [("abc").data, [], ("d e").data] = DecodePath.primary :=
  ⟨by decide, by decide,
   (claim_C2_round_trip [("abc").data, [], ("d e").data] (by decide) (by decide)).1,
   (claim_C2_round_trip [("abc").data, [], ("d e").data] (by decide) (by decide)).2⟩

/-- C8: when the delimiter split misses the expected count but the newline
split with blank lines discarded hits it exactly, decode returns that
newline split. -/
theorem claim_C8_secondary (raw : List Char) (texts : List (List Char))
    (h1 : (jsSplit SPLITtok (jsTrim raw)).length ≠ texts.length)
    (h2 : ((jsSplit ['\n'] (jsTrim raw)).filter nonBlank).length = texts.length) :
    translateDecode raw texts = (jsSplit ['\n'] (jsTrim raw)).filter nonBlank :=
  translateDecode_secondary raw texts h1 h2

/-- Witness for C8, the scenario of the claim: 2 delimiter pieces but exactly
3 non-blank lines for a 3-segment batch, and decode returns the newline
split. -/
theorem claim_C8_witness :
    (jsSplit SPLITtok (jsTrim (("a\nb---SPLIT---\nc").data))).length ≠ 3 ∧
    ((jsSplit ['\n'] (jsTrim (("a\nb---SPLIT---\nc").data))).filter nonBlank).length = 3 ∧
    translateDecode (("a\nb---SPLIT---\nc").data) [("x").data, ("y").data, ("z").data] =
      [("a").data, ("b---SPLIT---").data, ("c").data] :=
  ⟨by decide, by decide, by
    rw [claim_C8_secondary (("a\nb---SPLIT---\nc").data)
      [("x").data, ("y").data, ("z").data] (by decide) (by decide)]
    decide⟩

/-- C9 counterexample: on the empty payload with expected count 0 the
delimiter split is consulted and yields one (empty) piece, and the empty
result is produced by the newline-split branch, so decode does not return
the empty sequence without invoking the split paths. -/
theorem claim_C9_counterexample :
    (jsSplit SPLITtok (jsTrim (encodeSegs []))).length = 1 ∧
    translateDecodePath (encodeSegs []) [] = DecodePath.secondary := by
  decide

/-- C9 amended: an empty segment list encodes to the empty payload, and
decoding the empty payload with expected count 0 returns the empty sequence,
produced by the secondary newline-split branch (the delimiter split of an
empty string yields one empty piece, so the primary count check fails, and
the newline split filtered of blank lines is empty, matching count 0). -/
theorem claim_C9_empty :
    encodeSegs [] = [] ∧
    translateDecode (encodeSegs []) [] = [] ∧
    translateDecodePath (encodeSegs []) [] = DecodePath.secondary := by
  decide

/-- C6 (code bug): the claim and the code's own comment say the cleaner
replaces the Chinese (full-width) colon, but the committed regex is the
three-character mojibake of that colon's UTF-8 bytes, so the real full-width
colon U+FF1A survives normalization unchanged while the mojibake sequence is
the one replaced by an ASCII colon; the remaining conjuncts of the claim
(trim, one trailing slash, scheme default, the two reference examples) hold. -/
theorem claim_C6_mojibake_bug :
    cleanHost (("127.0.0.1").data ++ [fullColon] ++ ("11434").data) =
      ("http://127.0.0.1").data ++ [fullColon] ++ ("11434").data ∧
    fullColon ∈ cleanHost (("127.0.0.1").data ++ [fullColon] ++ ("11434").data) ∧
    cleanHost (("127.0.0.1").data ++ MOJI ++ ("11434").data) =
      ("http://127.0.0.1:11434").data ∧
    cleanHost (("127.0.0.1:11434").data) = ("http://127.0.0.1:11434").data ∧
    cleanHost (("http://host/").data) = ("http://host").data := by
  decide

/-- C7: the probe classifies every outcome into exactly one of the four
results.  An address rejected by the URL check yields INVALID_URL regardless
of the fetch outcome (checked first, short-circuiting the network); given a
valid address, a 2xx response yields ok, a 403 yields CORS, any other
response status or a transport error yields NETWORK; and the result is
always one of the four. -/
theorem claim_C7_probe (urlValid : List Char → Bool) (host : List Char) (st : Nat)
    (f : FetchOutcome) :
    (urlValid (cleanHost host) = false →
      checkConnection urlValid f host =
        { ok := false, errorType := some ConnErrorType.INVALID_URL } ∧
      checkConnection urlValid f host = checkConnection urlValid FetchOutcome.netError host) ∧
    (urlValid (cleanHost host) = true →
      (200 ≤ st ∧ st ≤ 299 →
        checkConnection urlValid (FetchOutcome.resp st) host = { ok := true, errorType := none }) ∧
      checkConnection urlValid (FetchOutcome.resp 403) host =
        { ok := false, errorType := some ConnErrorType.CORS } ∧
      (¬(200 ≤ st ∧ st ≤ 299) → st ≠ 403 →
        checkConnection urlValid (FetchOutcome.resp st) host =
          { ok := false, errorType := some ConnErrorType.NETWORK }) ∧
      checkConnection urlValid FetchOutcome.netError host =
        { ok := false, errorType := some ConnErrorType.NETWORK }) ∧
    checkConnection urlValid f host ∈
      [({ ok := true, errorType := none } : ConnectionResult),
       { ok := false, errorType := some ConnErrorType.CORS },
       { ok := false, errorType := some ConnErrorType.NETWORK },
       { ok := false, errorType := some ConnErrorType.INVALID_URL }] := by
  refine ⟨?_, ?_, ?_⟩
  · intro hv
    constructor
    · simp [checkConnection, hv]
    · simp [checkConnection, hv]
  · intro hv
    refine ⟨?_, ?_, ?_, ?_⟩
    · intro h2xx
      simp [checkConnection, hv, h2xx]
    · simp [checkConnection, hv]
    · intro hn2 h403
      simp [checkConnection, hv, hn2, h403]
    · simp [checkConnection, hv]
  · by_cases hv : urlValid (cleanHost host) = false
    · simp [checkConnection, hv]
    · cases f with
      | netError => simp [checkConnection, hv]
      | resp s =>
        by_cases h2 : 200 ≤ s ∧ s ≤ 299
        · simp [checkConnection, hv, h2]
        · by_cases h4 : s = 403
          · simp [checkConnection, hv, h2, h4]
          · simp [checkConnection, hv, h2, h4]

/-- Witness for C7: each classification at a concrete address and outcome. -/
theorem claim_C7_witness :
    checkConnection (fun _ => false) (FetchOutcome.resp 200) (("h").data) =
      { ok := false, errorType := some ConnErrorType.INVALID_URL } ∧
    checkConnection (fun _ => true) (FetchOutcome.resp 200) (("h").data) =
      { ok := true, errorType := none } ∧
    checkConnection (fun _ => true) (FetchOutcome.resp 403) (("h").data) =
      { ok := false, errorType := some ConnErrorType.CORS } ∧
    checkConnection (fun _ => true) (FetchOutcome.resp 500) (("h").data) =
      { ok := false, errorType := some ConnErrorType.NETWORK } ∧
    checkConnection (fun _ => true) FetchOutcome.netError (("h").data) =
      { ok := false, errorType := some ConnErrorType.NETWORK } :=
  ⟨((claim_C7_probe (fun _ => false) (("h").data) 200 (FetchOutcome.resp 200)).1 rfl).1,
   ((claim_C7_probe (fun _ => true) (("h").data) 200 (FetchOutcome.resp 200)).2.1 rfl).1
     (by decide),
   ((claim_C7_probe (fun _ => true) (("h").data) 200 (FetchOutcome.resp 403)).2.1 rfl).2.1,
   ((claim_C7_probe (fun _ => true) (("h").data) 500 FetchOutcome.netError).2.1 rfl).2.2.1
     (by decide) (by decide),
   ((claim_C7_probe (fun _ => true) (("h").data) 500 FetchOutcome.netError).2.1 rfl).2.2.2⟩

/-- C10: parseSRT is a total function from strings to entry lists; it yields
at most one entry per blank-line-separated block, and when every block is
malformed (fewer than 3 lines, or no timing match on its second line) the
result is the empty list rather than an error. -/
theorem claim_C10_parseSRT (content : List Char) :
    (parseSRT content).length ≤ (jsSplit ['\n', '\n'] (normEol content)).length ∧
    ((∀ b ∈ jsSplit ['\n', '\n'] (normEol content),
        (jsSplit ['\n'] (jsTrim b)).length < 3 ∨
        findTiming ((jsSplit ['\n'] (jsTrim b)).getD 1 []) = none) →
      parseSRT content = []) := by
  constructor
  · exact List.length_filterMap_le parseBlock _
  · intro hall
    unfold parseSRT
    refine List.filterMap_eq_nil_iff.mpr ?_
    intro b hb
    rcases hall b hb with h | h
    · exact parseBlock_none_of_short b h
    · exact parseBlock_none_of_timing b h

/-- Witness for C10: a fully malformed document parses to the empty list. -/
theorem claim_C10_witness :
    (∀ b ∈ jsSplit ['\n', '\n'] (normEol (("hello\n\nbroken block").data)),
      (jsSplit ['\n'] (jsTrim b)).length < 3 ∨
      findTiming ((jsSplit ['\n'] (jsTrim b)).getD 1 []) = none) ∧
    parseSRT (("hello\n\nbroken block").data) = [] :=
  ⟨by decide, (claim_C10_parseSRT (("hello\n\nbroken block").data)).2 (by decide)⟩

/-- C4: the batch windows are contiguous disjoint slices in document order
whose concatenated index ranges are exactly the full index range, each of
size between 1 and BATCH_SIZE; a 23-entry document yields windows
(0,10), (10,10), (20,3); the orchestrator's processed-count trace is exactly
the window ends in order, so a 23-entry run reports 10, 20, 23. -/
theorem claim_C4_batches :
    (∀ n, flatCat ((batchWindows n).map (fun p => List.range' p.1 p.2)) = List.range n) ∧
    (∀ n p, p ∈ batchWindows n → 0 < p.2 ∧ p.2 ≤ BATCH_SIZE) ∧
    batchWindows 23 = [(0, 10), (10, 10), (20, 3)] ∧
    (∀ gen blocks, (startTranslation gen blocks).trace =
      (batchWindows blocks.length).map (fun p => p.1 + p.2)) ∧
    (batchWindows 23).map (fun p => p.1 + p.2) = [10, 20, 23] := by
  refine ⟨?_, ?_, by decide, ?_, by decide⟩
  · intro n
    unfold batchWindows
    rw [windowsFrom_cover n n 0 (by omega), Nat.sub_zero, List.range_eq_range']
  · intro n p hp
    exact windowsFrom_sizes n n 0 p hp
  · intro gen blocks
    show (runFrom gen blocks.length blocks 0 0).2 = _
    exact runFrom_trace gen blocks.length blocks 0 0

/-- Witness for C4: the first window of the 23-entry document is in the
window list and respects the size bound, and a concrete 23-entry run
reports 10, 20, 23. -/
theorem claim_C4_witness :
    ((0, 10) ∈ batchWindows 23) ∧
    (0 < (0, 10).2 ∧ (0, 10).2 ≤ BATCH_SIZE) ∧
    (startTranslation (fun _ => GenOutcome.fail)
      (List.replicate 23 blankBlock)).trace = [10, 20, 23] := by
  refine ⟨by decide, claim_C4_batches.2.1 23 (0, 10) (by decide), ?_⟩
  rw [claim_C4_batches.2.2.2.1 (fun _ => GenOutcome.fail) (List.replicate 23 blankBlock)]
  decide

/-- C5: the processed counts emitted by a run, preceded by the initial 0, are
monotonically non-decreasing; the last of them equals the total entry count;
and the trace is exactly the running totals of the batch sizes, so the count
advances only in whole-batch increments. -/
theorem claim_C5_processed (gen : Nat → GenOutcome) (blocks : List SubtitleBlock) :
    List.Chain' (· ≤ ·) (0 :: (startTranslation gen blocks).trace) ∧
    (0 :: (startTranslation gen blocks).trace).getLast? = some blocks.length ∧
    (startTranslation gen blocks).trace =
      partialSums ((batchWindows blocks.length).map Prod.snd) := by
  have htr : (startTranslation gen blocks).trace =
      (windowsFrom blocks.length blocks.length 0).map (fun p => p.1 + p.2) := by
    show (runFrom gen blocks.length blocks 0 0).2 = _
    exact runFrom_trace gen blocks.length blocks 0 0
  refine ⟨?_, ?_, ?_⟩
  · rw [htr, windowsFrom_partialSums]
    exact chain_partialSumsFrom _ 0
  · rw [htr]
    exact windowsFrom_last blocks.length blocks.length 0 (by omega) (by omega)
  · rw [htr]
    unfold batchWindows partialSums
    exact windowsFrom_partialSums blocks.length blocks.length 0

/-- C3: a run always ends in COMPLETED whatever the generate outcomes are;
every entry of a batch whose generate call failed ends with translated text
equal to its original text; and an entry's final state depends only on the
outcome of its own batch, so a failing batch leaves every other batch's
results unchanged. -/
theorem claim_C3_failure_isolation :
    (∀ gen blocks, (startTranslation gen blocks).state = AppState.COMPLETED) ∧
    (∀ gen blocks (j : Nat) (d : SubtitleBlock), j < blocks.length →
      gen (j / BATCH_SIZE) = GenOutcome.fail →
      (((startTranslation gen blocks).blocks.getD j d).translatedText =
        (blocks.getD j d).originalText)) ∧
    (∀ gen gen' blocks (j : Nat) (d : SubtitleBlock), j < blocks.length →
      gen (j / BATCH_SIZE) = gen' (j / BATCH_SIZE) →
      (startTranslation gen blocks).blocks.getD j d =
        (startTranslation gen' blocks).blocks.getD j d) := by
  have hchar : ∀ (gen : Nat → GenOutcome) (blocks : List SubtitleBlock) (j : Nat),
      j < blocks.length →
      (startTranslation gen blocks).blocks[j]? =
        (blocks[j]?).map (fun blk =>
          { blk with translatedText :=
              (translateBatch
                (((blocks.map (fun bb => bb.originalText)).drop
                    (BATCH_SIZE * (j / BATCH_SIZE))).take BATCH_SIZE)
                (gen (j / BATCH_SIZE))).getD (j % BATCH_SIZE) [] }) := by
    intro gen blocks j hj
    show (runFrom gen blocks.length blocks 0 0).1[j]? = _
    have hc := runFrom_char gen blocks.length blocks 0 0 j (by omega) hj (by omega)
    simpa using hc
  refine ⟨fun gen blocks => rfl, ?_, ?_⟩
  · intro gen blocks j d hj hfail
    have hc := hchar gen blocks j hj
    have hb : blocks[j]? = some blocks[j] := List.getElem?_eq_getElem hj
    rw [hb, hfail] at hc
    rw [List.getD_eq_getElem?_getD, hc]
    show (translateBatch (((blocks.map (fun bb => bb.originalText)).drop
        (BATCH_SIZE * (j / BATCH_SIZE))).take BATCH_SIZE)
        GenOutcome.fail).getD (j % BATCH_SIZE) [] = (blocks.getD j d).originalText
    show (((blocks.map (fun bb => bb.originalText)).drop
        (BATCH_SIZE * (j / BATCH_SIZE))).take BATCH_SIZE).getD (j % BATCH_SIZE) []
      = (blocks.getD j d).originalText
    rw [List.getD_eq_getElem?_getD, List.getD_eq_getElem?_getD]
    have hmodlt : j % BATCH_SIZE < BATCH_SIZE := by
      simp only [BATCH_SIZE]
      omega
    rw [List.getElem?_take_of_lt hmodlt, List.getElem?_drop]
    have hidx : BATCH_SIZE * (j / BATCH_SIZE) + j % BATCH_SIZE = j := Nat.div_add_mod j BATCH_SIZE
    rw [hidx, List.getElem?_map, hb]
    rfl
  · intro gen gen' blocks j d hj hag
    rw [List.getD_eq_getElem?_getD, List.getD_eq_getElem?_getD,
      hchar gen blocks j hj, hchar gen' blocks j hj, hag]

/-- Witness for C3: in a 23-entry document split into 3 batches where the
second batch's generate call fails, entry 15 keeps its original text, the
run completes, and its result agrees with a run differing only outside its
batch. -/
theorem claim_C3_witness :
    (((startTranslation (fun k => if k = 1 then GenOutcome.fail else GenOutcome.ok [])
        (List.replicate 23 blankBlock)).blocks.getD 15 blankBlock).translatedText =
      ((List.replicate 23 blankBlock).getD 15 blankBlock).originalText) ∧
    ((startTranslation (fun k => if k = 1 then GenOutcome.fail else GenOutcome.ok [])
        (List.replicate 23 blankBlock)).state = AppState.COMPLETED) ∧
    ((startTranslation (fun k => if k = 1 then GenOutcome.fail else GenOutcome.ok [])
        (List.replicate 23 blankBlock)).blocks.getD 15 blankBlock =
      (startTranslation (fun _ => GenOutcome.fail)
        (List.replicate 23 blankBlock)).blocks.getD 15 blankBlock) :=
  ⟨claim_C3_failure_isolation.2.1 _ _ 15 blankBlock (by decide) (by decide),
   claim_C3_failure_isolation.1 _ _,
   claim_C3_failure_isolation.2.2 _ _ _ 15 blankBlock (by decide) (by decide)⟩
